import Mathlib

/-!
A shallow embedding of the drawing-element model of the drawIT whiteboard
application: the element record and the history/undo state of
`src/contexts/DrawingContext.tsx`, and the hit-testing / erasing / rendering
logic of the canvas component.

Modelling conventions:
* JavaScript numbers are modelled as rationals (`ℚ`); the code performs only
  field arithmetic and comparisons on them.
* Optional record fields (`width?: number`, ...) are modelled as `Option`.
* JavaScript truthiness tests on optional fields are modelled explicitly:
  `0` and the empty string are falsy, an empty array is truthy.
* `Math.sqrt d < 10` (with `d ≥ 0`) is modelled as the equivalent `d < 100`
  on squared distances, keeping everything inside `ℚ`.
* `ctx.measureText(line).width` is a browser text-metrics oracle; the
  embedding is parametrised over a measuring function
  `measure : fontSize → fontFamily → line → width`.
-/

/-- The `Tool` union type of `DrawingContext.tsx`. -/
inductive Tool where
  | select | pen | rectangle | circle | triangle | diamond | hexagon
  | star | arrow | text | image | eraser | fill
deriving DecidableEq

/-- A point `{ x, y }` as used in freehand strokes. -/
structure Point where
  x : ℚ
  y : ℚ
deriving DecidableEq

/-- The loaded `HTMLImageElement` of an image element: its natural size and
source URL are all the code observes. -/
structure ImageHandle where
  width : ℚ
  height : ℚ
  src : String
deriving DecidableEq

/-- The `DrawingElement` record of `DrawingContext.tsx`. -/
structure DrawingElement where
  id : String
  type : Tool
  x : ℚ
  y : ℚ
  width : Option ℚ := none
  height : Option ℚ := none
  points : Option (List Point) := none
  text : Option String := none
  fontSize : Option ℚ := none
  fontFamily : Option String := none
  imageData : Option String := none
  imageElement : Option ImageHandle := none
  color : String
  strokeWidth : ℚ
  fillColor : Option String := none
  filled : Option Bool := none
  erased : Option Bool := none
deriving DecidableEq

/-- An updates record (TypeScript `Partial` of `DrawingElement`): every field
optional, `none` meaning the property is absent from the update object. -/
structure ElementUpdates where
  id : Option String := none
  type : Option Tool := none
  x : Option ℚ := none
  y : Option ℚ := none
  width : Option ℚ := none
  height : Option ℚ := none
  points : Option (List Point) := none
  text : Option String := none
  fontSize : Option ℚ := none
  fontFamily : Option String := none
  imageData : Option String := none
  imageElement : Option ImageHandle := none
  color : Option String := none
  strokeWidth : Option ℚ := none
  fillColor : Option String := none
  filled : Option Bool := none
  erased : Option Bool := none
deriving DecidableEq

/-- Property override for an optional field: a property present in the update
object replaces the element's value, an absent one leaves it. -/
def overrideOpt {α : Type} (u cur : Option α) : Option α :=
  match u with
  | some v => some v
  | none => cur

/-- The object spread `\x7b ...el, ...updates \x7d` of `updateElement`:
field-wise override of the element by the properties present in the update. -/
def applyUpdates (el : DrawingElement) (u : ElementUpdates) : DrawingElement :=
  { id := u.id.getD el.id
    type := u.type.getD el.type
    x := u.x.getD el.x
    y := u.y.getD el.y
    width := overrideOpt u.width el.width
    height := overrideOpt u.height el.height
    points := overrideOpt u.points el.points
    text := overrideOpt u.text el.text
    fontSize := overrideOpt u.fontSize el.fontSize
    fontFamily := overrideOpt u.fontFamily el.fontFamily
    imageData := overrideOpt u.imageData el.imageData
    imageElement := overrideOpt u.imageElement el.imageElement
    color := u.color.getD el.color
    strokeWidth := u.strokeWidth.getD el.strokeWidth
    fillColor := overrideOpt u.fillColor el.fillColor
    filled := overrideOpt u.filled el.filled
    erased := overrideOpt u.erased el.erased }

/-- The provider state of `DrawingContext.tsx` that the claims concern:
the live element list, the snapshot history and the history cursor. -/
structure DrawState where
  elements : List DrawingElement
  history : List (List DrawingElement)
  historyIndex : Nat
deriving DecidableEq

/-- The initial provider state: empty live list, history `[[]]`, cursor 0. -/
def initState : DrawState :=
  { elements := [], history := [[]], historyIndex := 0 }

/-- `addElement`: append the element to the live list, truncate the history
after the cursor (`slice(0, historyIndex + 1)`), push the new list as a
snapshot, and advance the cursor. -/
def addElement (s : DrawState) (element : DrawingElement) : DrawState :=
  let newElements := s.elements ++ [element]
  { elements := newElements
    history := s.history.take (s.historyIndex + 1) ++ [newElements]
    historyIndex := s.historyIndex + 1 }

/-- `updateElement`: map the update over the live list, applying it to every
element whose identifier matches, then record the result in the history as
`addElement` does. -/
def updateElement (s : DrawState) (targetId : String) (u : ElementUpdates) : DrawState :=
  let newElements := s.elements.map fun el => if el.id = targetId then applyUpdates el u else el
  { elements := newElements
    history := s.history.take (s.historyIndex + 1) ++ [newElements]
    historyIndex := s.historyIndex + 1 }

/-- `deleteElement`: drop every element whose identifier matches, then record
the result in the history as `addElement` does. (The concomitant clearing of
the selection is UI state outside this model.) -/
def deleteElement (s : DrawState) (targetId : String) : DrawState :=
  let newElements := s.elements.filter fun el => !(el.id = targetId)
  { elements := newElements
    history := s.history.take (s.historyIndex + 1) ++ [newElements]
    historyIndex := s.historyIndex + 1 }

/-- `undo`: when the cursor is positive, step it back and load the snapshot at
the new cursor (`history[historyIndex - 1]`, which is always in bounds in
reachable states; out of bounds the JavaScript indexing would yield
`undefined`, here the default `[]`). -/
def undo (s : DrawState) : DrawState :=
  if 0 < s.historyIndex then
    { s with
      historyIndex := s.historyIndex - 1
      elements := s.history.getD (s.historyIndex - 1) [] }
  else s

/-- `redo`: when the cursor is below the last snapshot index, step it forward
and load the snapshot at the new cursor (`history[historyIndex + 1]`). -/
def redo (s : DrawState) : DrawState :=
  if s.historyIndex < s.history.length - 1 then
    { s with
      historyIndex := s.historyIndex + 1
      elements := s.history.getD (s.historyIndex + 1) [] }
  else s

/-- `canUndo = historyIndex > 0`. -/
def canUndo (s : DrawState) : Bool :=
  decide (0 < s.historyIndex)

/-- `canRedo = historyIndex < history.length - 1`. -/
def canRedo (s : DrawState) : Bool :=
  decide (s.historyIndex < s.history.length - 1)

/-- Claim C6: `addElement` appends: the new live list is the old list with the
new element placed at the end, every previously stored element unchanged and
in its original order. -/
theorem addElement_append (s : DrawState) (element : DrawingElement) :
    (addElement s element).elements = s.elements ++ [element] := rfl

/-- Claim C1: `canUndo`/`canRedo` report exactly cursor-positive and
cursor-below-last; when enabled, `undo` (resp. `redo`) steps the cursor and
loads the snapshot stored at the new cursor without touching the history, and
otherwise both leave the state unchanged. -/
theorem undo_redo_spec (s : DrawState) :
    (canUndo s = true ↔ 0 < s.historyIndex) ∧
    (canRedo s = true ↔ s.historyIndex < s.history.length - 1) ∧
    (0 < s.historyIndex →
      (undo s).historyIndex = s.historyIndex - 1 ∧
      (undo s).elements = s.history.getD (s.historyIndex - 1) [] ∧
      (undo s).history = s.history) ∧
    (¬ 0 < s.historyIndex → undo s = s) ∧
    (s.historyIndex < s.history.length - 1 →
      (redo s).historyIndex = s.historyIndex + 1 ∧
      (redo s).elements = s.history.getD (s.historyIndex + 1) [] ∧
      (redo s).history = s.history) ∧
    (¬ s.historyIndex < s.history.length - 1 → redo s = s) := by
  refine ⟨by simp [canUndo], by simp [canRedo], ?_, ?_, ?_, ?_⟩
  · intro h
    unfold undo
    rw [if_pos h]
    exact ⟨rfl, rfl, rfl⟩
  · intro h
    unfold undo
    rw [if_neg h]
  · intro h
    unfold redo
    rw [if_pos h]
    exact ⟨rfl, rfl, rfl⟩
  · intro h
    unfold redo
    rw [if_neg h]

/-- States reachable from the initial provider state by the context
operations (with arbitrary arguments). -/
inductive Reachable : DrawState → Prop where
  | base : Reachable initState
  | addStep {s : DrawState} (el : DrawingElement) : Reachable s → Reachable (addElement s el)
  | updateStep {s : DrawState} (i : String) (u : ElementUpdates) :
      Reachable s → Reachable (updateElement s i u)
  | deleteStep {s : DrawState} (i : String) : Reachable s → Reachable (deleteElement s i)
  | undoStep {s : DrawState} : Reachable s → Reachable (undo s)
  | redoStep {s : DrawState} : Reachable s → Reachable (redo s)

/-- The history invariant: the cursor is in bounds and the snapshot at the
cursor is the live list. -/
def HistInv (s : DrawState) : Prop :=
  s.historyIndex < s.history.length ∧ s.history.getD s.historyIndex [] = s.elements

/-- A mutation (add/update/delete) leaves the history truncated at the cursor
with the new live list appended; this helper captures the common shape. -/
theorem mutation_hist_inv {s : DrawState} (hinv : HistInv s) (l : List DrawingElement)
    (t : DrawState)
    (ht : t = ⟨l, s.history.take (s.historyIndex + 1) ++ [l], s.historyIndex + 1⟩) :
    t.historyIndex < t.history.length ∧
    t.history.getD t.historyIndex [] = t.elements ∧
    t.historyIndex = t.history.length - 1 := by
  obtain ⟨hlt, _⟩ := hinv
  have htake : (s.history.take (s.historyIndex + 1)).length = s.historyIndex + 1 := by
    rw [List.length_take]
    omega
  subst ht
  have hlen : (s.history.take (s.historyIndex + 1) ++ [l]).length = s.historyIndex + 2 := by
    simp [htake]
  refine ⟨by simp [hlen], ?_, by simp [hlen]⟩
  show (s.history.take (s.historyIndex + 1) ++ [l]).getD (s.historyIndex + 1) [] = l
  have h0 : (s.history.take (s.historyIndex + 1) ++ [l])[s.historyIndex + 1]? = some l := by
    rw [List.getElem?_append_right (le_of_eq htake), htake]
    simp
  simp [List.getD_eq_getElem?_getD, h0]

/-- Every reachable state satisfies the history invariant. -/
theorem reachable_histInv {s : DrawState} (h : Reachable s) : HistInv s := by
  induction h with
  | base => exact ⟨by decide, rfl⟩
  | addStep el _ ih =>
      obtain ⟨h1, h2, _⟩ := mutation_hist_inv ih _ _ rfl
      exact ⟨h1, h2⟩
  | updateStep i u _ ih =>
      obtain ⟨h1, h2, _⟩ := mutation_hist_inv ih _ _ rfl
      exact ⟨h1, h2⟩
  | deleteStep i _ ih =>
      obtain ⟨h1, h2, _⟩ := mutation_hist_inv ih _ _ rfl
      exact ⟨h1, h2⟩
  | undoStep _ ih =>
      obtain ⟨hlt, helems⟩ := ih
      unfold undo
      split
      · refine ⟨?_, rfl⟩
        dsimp only
        omega
      · exact ⟨hlt, helems⟩
  | redoStep _ ih =>
      obtain ⟨hlt, helems⟩ := ih
      unfold redo
      split
      · rename_i hcond
        refine ⟨?_, rfl⟩
        dsimp only
        omega
      · exact ⟨hlt, helems⟩

/-- Claim C2: in every reachable state, undo followed by redo restores the
state whenever undo is enabled, and redo followed by undo restores it whenever
redo is enabled. -/
theorem undo_redo_roundtrip {s : DrawState} (h : Reachable s) :
    (canUndo s = true → redo (undo s) = s) ∧
    (canRedo s = true → undo (redo s) = s) := by
  obtain ⟨hlt, helems⟩ := reachable_histInv h
  obtain ⟨elements, history, historyIndex⟩ := s
  dsimp only at hlt helems
  constructor
  · intro hc
    have hpos : 0 < historyIndex := by
      simpa [canUndo] using hc
    unfold undo
    rw [if_pos hpos]
    unfold redo
    dsimp only
    rw [if_pos (by omega : historyIndex - 1 < history.length - 1)]
    have hidx : historyIndex - 1 + 1 = historyIndex := by omega
    rw [hidx, helems]
  · intro hc
    have hpos : historyIndex < history.length - 1 := by
      simpa [canRedo] using hc
    unfold redo
    rw [if_pos hpos]
    unfold undo
    dsimp only
    rw [if_pos (by omega : 0 < historyIndex + 1)]
    rw [(by omega : historyIndex + 1 - 1 = historyIndex), helems]

/-- Post-state property of a mutation: the cursor sits on the last snapshot,
that snapshot is the live list, and redo is disabled. -/
def MutationFlush (t : DrawState) : Prop :=
  t.historyIndex = t.history.length - 1 ∧
  t.history.getD t.historyIndex [] = t.elements ∧
  canRedo t = false

/-- Claim C8: from every reachable state, each mutation truncates the history
at the cursor and appends its own snapshot, so afterwards the cursor is the
last snapshot index, that snapshot is the new live list and `canRedo` is
false; moreover the cursor is always strictly below the snapshot count. -/
theorem mutation_resets_redo {s : DrawState} (h : Reachable s) :
    (∀ el, MutationFlush (addElement s el)) ∧
    (∀ i u, MutationFlush (updateElement s i u)) ∧
    (∀ i, MutationFlush (deleteElement s i)) ∧
    s.historyIndex < s.history.length := by
  have hinv := reachable_histInv h
  have flush : ∀ t l, t = DrawState.mk l (s.history.take (s.historyIndex + 1) ++ [l])
      (s.historyIndex + 1) → MutationFlush t := by
    intro t l ht
    obtain ⟨h1, h2, h3⟩ := mutation_hist_inv hinv l t ht
    refine ⟨h3, h2, ?_⟩
    simp only [canRedo, h3, decide_eq_false_iff_not]
    omega
  exact ⟨fun el => flush _ _ rfl, fun i u => flush _ _ rfl, fun i => flush _ _ rfl, hinv.1⟩

/-- A sample element used to instantiate theorems with hypotheses. -/
def elA : DrawingElement :=
  { id := "a", type := Tool.pen, x := 0, y := 0, color := "#000000", strokeWidth := 2 }

/-- Witness for C1: at the state reached by one `addElement` the undo branch
fires and at the initial state it does not. -/
theorem undo_redo_spec_witness :
    ((undo (addElement initState elA)).historyIndex = 0 ∧
      (undo (addElement initState elA)).elements =
        (addElement initState elA).history.getD 0 [] ∧
      (undo (addElement initState elA)).history = (addElement initState elA).history) ∧
    redo (addElement initState elA) = addElement initState elA ∧
    undo initState = initState := by
  refine ⟨(undo_redo_spec (addElement initState elA)).2.2.1 (by decide), ?_, ?_⟩
  · exact (undo_redo_spec (addElement initState elA)).2.2.2.2.2 (by decide)
  · exact (undo_redo_spec initState).2.2.2.1 (by decide)

/-- Witness for C2: undo then redo at the state reached by one `addElement`. -/
theorem undo_redo_roundtrip_witness :
    redo (undo (addElement initState elA)) = addElement initState elA :=
  (undo_redo_roundtrip (Reachable.addStep elA Reachable.base)).1 (by decide)

/-- Witness for C8: the mutation post-state property at the initial state. -/
theorem mutation_resets_redo_witness :
    MutationFlush (addElement initState elA) :=
  (mutation_resets_redo Reachable.base).1 elA

/-- States reachable when every `addElement` call adds an element whose
identifier is fresh for the current live list and no `updateElement` call
carries an `id` property: the discipline the UI call sites follow. -/
inductive ReachableU : DrawState → Prop where
  | base : ReachableU initState
  | addStep {s : DrawState} (el : DrawingElement) :
      el.id ∉ s.elements.map DrawingElement.id → ReachableU s → ReachableU (addElement s el)
  | updateStep {s : DrawState} (i : String) (u : ElementUpdates) :
      u.id = none → ReachableU s → ReachableU (updateElement s i u)
  | deleteStep {s : DrawState} (i : String) : ReachableU s → ReachableU (deleteElement s i)
  | undoStep {s : DrawState} : ReachableU s → ReachableU (undo s)
  | redoStep {s : DrawState} : ReachableU s → ReachableU (redo s)

/-- Identifier uniqueness of the live list and of every history snapshot. -/
def UniqueIds (s : DrawState) : Prop :=
  (∀ l ∈ s.history, (l.map DrawingElement.id).Nodup) ∧
  (s.elements.map DrawingElement.id).Nodup

/-- An update object without an `id` property never changes identifiers. -/
theorem map_id_update_of_none {u : ElementUpdates} (hu : u.id = none)
    (l : List DrawingElement) (targetId : String) :
    ((l.map fun el => if el.id = targetId then applyUpdates el u else el).map
      DrawingElement.id) = l.map DrawingElement.id := by
  induction l with
  | nil => rfl
  | cons a t ih =>
      simp only [List.map_cons, ih]
      congr 1
      by_cases hid : a.id = targetId
      · simp [hid, applyUpdates, hu]
      · simp [hid]

/-- The list loaded by `undo`/`redo` is a history snapshot or the default. -/
theorem getD_mem_or_default (l : List (List DrawingElement)) (n : Nat) :
    l.getD n [] ∈ l ∨ l.getD n [] = ([] : List DrawingElement) := by
  rcases h : l[n]? with _ | a
  · right
    simp [List.getD_eq_getElem?_getD, h]
  · left
    have hm : a ∈ l := List.get?_mem (by rw [List.get?_eq_getElem?]; exact h)
    simpa [List.getD_eq_getElem?_getD, h] using hm

/-- Under the call-site discipline, the live list and every snapshot keep
pairwise-distinct identifiers. -/
theorem reachableU_uniqueIds {s : DrawState} (h : ReachableU s) : UniqueIds s := by
  induction h with
  | base =>
      constructor
      · intro l hl
        simp only [initState, List.mem_singleton] at hl
        simp [hl]
      · simp [initState]
  | @addStep s el hfresh hr ih =>
      obtain ⟨hhist, hlive⟩ := ih
      have hnew : ((s.elements ++ [el]).map DrawingElement.id).Nodup := by
        rw [List.map_append, List.nodup_append]
        refine ⟨hlive, by simp, ?_⟩
        intro a ha hb
        simp only [List.map_cons, List.map_nil, List.mem_singleton] at hb
        exact hfresh (hb ▸ ha)
      constructor
      · intro l hl
        rcases List.mem_append.mp hl with hmem | hmem
        · exact hhist l (List.take_subset _ _ hmem)
        · rw [List.mem_singleton.mp hmem]
          exact hnew
      · exact hnew
  | @updateStep s i u hu hr ih =>
      obtain ⟨hhist, hlive⟩ := ih
      have hnew : (((s.elements.map fun el =>
          if el.id = i then applyUpdates el u else el).map DrawingElement.id)).Nodup := by
        rw [map_id_update_of_none hu]
        exact hlive
      constructor
      · intro l hl
        rcases List.mem_append.mp hl with hmem | hmem
        · exact hhist l (List.take_subset _ _ hmem)
        · rw [List.mem_singleton.mp hmem]
          exact hnew
      · exact hnew
  | deleteStep i _ ih =>
      obtain ⟨hhist, hlive⟩ := ih
      have hsub : ∀ (l : List DrawingElement),
          ((l.filter fun el => !(el.id = i)).map DrawingElement.id).Sublist
            (l.map DrawingElement.id) :=
        fun l => (List.filter_sublist l).map DrawingElement.id
      constructor
      · intro l hl
        rcases List.mem_append.mp hl with hmem | hmem
        · exact hhist l (List.take_subset _ _ hmem)
        · rw [List.mem_singleton.mp hmem]
          exact (hsub _).nodup hlive
      · exact (hsub _).nodup hlive
  | undoStep _ ih =>
      obtain ⟨hhist, hlive⟩ := ih
      unfold undo
      split
      · refine ⟨hhist, ?_⟩
        rcases getD_mem_or_default _ _ with hmem | hdef
        · exact hhist _ hmem
        · rw [hdef]
          simp
      · exact ⟨hhist, hlive⟩
  | redoStep _ ih =>
      obtain ⟨hhist, hlive⟩ := ih
      unfold redo
      split
      · refine ⟨hhist, ?_⟩
        rcases getD_mem_or_default _ _ with hmem | hdef
        · exact hhist _ hmem
        · rw [hdef]
          simp
      · exact ⟨hhist, hlive⟩

/-- Counterexample to C3 as stated: `addElement` performs no freshness check,
so adding the same element twice leaves the live list with a repeated
identifier. -/
theorem ids_nodup_cex :
    ¬ (((addElement (addElement initState elA) elA).elements.map
      DrawingElement.id).Nodup) := by
  decide

/-- Claim C3 (amended): identifier uniqueness is an invariant of the element
list for every operation sequence from the empty list in which each added
element's identifier is fresh for the live list and no update carries an
`id` property. -/
theorem ids_nodup_of_fresh {s : DrawState} (h : ReachableU s) :
    (s.elements.map DrawingElement.id).Nodup :=
  (reachableU_uniqueIds h).2

/-- Witness for C3 (amended): the singleton state after one fresh add. -/
theorem ids_nodup_of_fresh_witness :
    ((addElement initState elA).elements.map DrawingElement.id).Nodup :=
  ids_nodup_of_fresh (ReachableU.addStep elA (by decide) ReachableU.base)

/-- JavaScript truthiness of an optional number: absent and `0` are falsy. -/
def truthyNum : Option ℚ → Bool
  | none => false
  | some v => decide (v ≠ 0)

/-- JavaScript truthiness of an optional string: absent and `""` are falsy. -/
def truthyStr : Option String → Bool
  | none => false
  | some s => decide (s ≠ "")

/-- JavaScript truthiness of an optional boolean: absent and `false` falsy. -/
def truthyBool : Option Bool → Bool
  | none => false
  | some b => b

/-- `element.fontSize || 16`. -/
def fontSizeVal (e : DrawingElement) : ℚ :=
  match e.fontSize with
  | some v => if v = 0 then 16 else v
  | none => 16

/-- `element.fontFamily || 'Arial'`. -/
def fontFamilyVal (e : DrawingElement) : String :=
  match e.fontFamily with
  | some f => if f = "" then "Arial" else f
  | none => "Arial"

/-- The browser text-metrics oracle `ctx.measureText(line).width` after
`ctx.font` is set from a font size and family. -/
def TextMeasure : Type :=
  ℚ → String → String → ℚ

/-- `Math.max(...)` over a mapped list (the list is nonempty at every use). -/
def maxOfList : List ℚ → ℚ
  | [] => 0
  | w :: ws => ws.foldl max w

/-- `Math.pow(x - point.x, 2) + Math.pow(y - point.y, 2)`: the squared
distance the pen hit test compares against `10 * 10`. -/
def distSq (p : Point) (x y : ℚ) : ℚ :=
  (x - p.x) * (x - p.x) + (y - p.y) * (y - p.y)

/-- The text branch of the hit test: point-in-rectangle against the measured
text box. -/
def textBoxHit (measure : TextMeasure) (e : DrawingElement) (t : String) (x y : ℚ) : Bool :=
  let fs := fontSizeVal e
  let ff := fontFamilyVal e
  let lines := t.splitOn "\n"
  let lineHeight := fs * (6 / 5)
  let textWidth := maxOfList (lines.map (measure fs ff))
  let textHeight := (lines.length : ℚ) * lineHeight
  decide (e.x ≤ x ∧ x ≤ e.x + textWidth ∧ e.y ≤ y ∧ y ≤ e.y + textHeight)

/-- The per-element body of the `getElementAtPosition` loop: erased elements
are skipped; text elements with nonempty text use the text box; pen elements
with a point list use per-point distance below 10; anything else with truthy
width and height uses its bounding box. -/
def elementHit (measure : TextMeasure) (e : DrawingElement) (x y : ℚ) : Bool :=
  if truthyBool e.erased = true then false
  else if e.type = Tool.text ∧ truthyStr e.text = true then
    textBoxHit measure e (e.text.getD "") x y
  else if e.type = Tool.pen ∧ e.points.isSome = true then
    (e.points.getD []).any fun p => decide (distSq p x y < 100)
  else if truthyNum e.width = true ∧ truthyNum e.height = true then
    decide (e.x ≤ x ∧ x ≤ e.x + e.width.getD 0 ∧ e.y ≤ y ∧ y ≤ e.y + e.height.getD 0)
  else false

/-- `getElementAtPosition`: the loop runs the index from the end of the list
down to 0 and returns the first hit, i.e. the first hit of the reversed
list; `null` becomes `none`. -/
def getElementAtPosition (measure : TextMeasure) (els : List DrawingElement)
    (x y : ℚ) : Option DrawingElement :=
  els.reverse.find? fun e => elementHit measure e x y

/-- The update object `\x7b erased: true \x7d` passed by `eraseAtPosition`. -/
def erasedUpdate : ElementUpdates :=
  { erased := some true }

/-- `eraseAtPosition`: hit-test at the position and, on a hit, mark the hit
element erased through the context's `updateElement`. -/
def eraseAtPosition (measure : TextMeasure) (s : DrawState) (x y : ℚ) : DrawState :=
  match getElementAtPosition measure s.elements x y with
  | some element => updateElement s element.id erasedUpdate
  | none => s

/-- Canvas-context commands at the granularity the rendering claims need:
the full-canvas clear, and the batch of path/stroke/fill commands
`drawElement` issues for one element (abstracted as one opcode; `drawElement`
issues nothing for an erased element). -/
inductive CanvasOp where
  | clearRect (x y w h : ℚ)
  | drawShape (e : DrawingElement)
deriving DecidableEq

/-- The commands `drawElement` issues: nothing when the element is erased
(`if (element.erased) return`), otherwise its shape commands. -/
def drawElementOps (e : DrawingElement) : List CanvasOp :=
  if truthyBool e.erased = true then [] else [CanvasOp.drawShape e]

/-- `redrawCanvas`: clear the whole canvas, then `elements.forEach` issuing
each element's commands in list order, then the transient in-progress preview
(pen path or shape rubber band), abstracted as an arbitrary suffix. -/
def redrawCanvasOps (cw ch : ℚ) (els : List DrawingElement)
    (previewOps : List CanvasOp) : List CanvasOp :=
  CanvasOp.clearRect 0 0 cw ch ::
    (els.foldl (fun acc e => acc ++ drawElementOps e) [] ++ previewOps)

/-- Modelled from the spec for the refinement comparison in C4: squared
distance from the query point to the segment from `a` to `b`. -/
def distSqPointSeg (a b : Point) (x y : ℚ) : ℚ :=
  let dx := b.x - a.x
  let dy := b.y - a.y
  let len2 := dx * dx + dy * dy
  if len2 = 0 then distSq a x y
  else
    let t := ((x - a.x) * dx + (y - a.y) * dy) / len2
    let tc := max 0 (min 1 t)
    let cx := a.x + tc * dx
    let cy := a.y + tc * dy
    (x - cx) * (x - cx) + (y - cy) * (y - cy)

/-- Modelled from the spec for the refinement comparison in C4:
"point-near-polyline", the query point within threshold 10 of the polyline
through the points (consecutive segments; a single point degenerates to
point distance). -/
def nearPolyline (pts : List Point) (x y : ℚ) : Bool :=
  match pts with
  | [] => false
  | [p] => decide (distSq p x y < 100)
  | _ :: _ :: _ =>
      (pts.zip pts.tail).any fun ab => decide (distSqPointSeg ab.1 ab.2 x y < 100)

/-- `uploadImage` after the `FileReader`/`Image` loading completes: the new
element built from the loaded image's natural size and data URL, with each
dimension capped at 300, added through `addElement`. -/
def uploadImage (s : DrawState) (now : String) (img : ImageHandle)
    (currentColor : String) (currentStrokeWidth : ℚ) : DrawState :=
  addElement s
    { id := now
      type := Tool.image
      x := 100
      y := 100
      width := some (if img.width > 300 then 300 else img.width)
      height := some (if img.height > 300 then 300 else img.height)
      imageData := some img.src
      imageElement := some img
      color := currentColor
      strokeWidth := currentStrokeWidth }

/-- A measuring oracle for concrete evaluations. -/
def measure0 : TextMeasure :=
  fun _ _ _ => 0

/-- A concrete freehand stroke along the x-axis with two distant points. -/
def penLine : DrawingElement :=
  { id := "p", type := Tool.pen, x := 0, y := 0,
    points := some [⟨0, 0⟩, ⟨100, 0⟩], color := "#000000", strokeWidth := 2 }

/-- A concrete one-point freehand stroke at the origin. -/
def penDot : DrawingElement :=
  { id := "d", type := Tool.pen, x := 0, y := 0,
    points := some [⟨0, 0⟩], color := "#000000", strokeWidth := 2 }

/-- Two concrete overlapping rectangles. -/
def rectB : DrawingElement :=
  { id := "b", type := Tool.rectangle, x := 0, y := 0, width := some 10,
    height := some 10, color := "#000000", strokeWidth := 2 }

/-- A second rectangle over the same area as `rectB`. -/
def rectC : DrawingElement :=
  { id := "c", type := Tool.rectangle, x := 0, y := 0, width := some 10,
    height := some 10, color := "#000000", strokeWidth := 2 }

/-- Accumulator form of `forEach`-style emission. -/
theorem foldl_append_ops (f : DrawingElement → List CanvasOp) :
    ∀ (l : List DrawingElement) (a : List CanvasOp),
      l.foldl (fun acc e => acc ++ f e) a = a ++ (l.map f).flatten := by
  intro l
  induction l with
  | nil => intro a; simp
  | cons e t ih =>
      intro a
      simp only [List.foldl_cons, List.map_cons, List.flatten_cons, ih, List.append_assoc]

/-- Claim C7: `redrawCanvas` first clears the entire canvas, then issues each
element's drawing commands in list order (erased elements contribute no
commands), with the transient preview drawing after them. -/
theorem redrawCanvas_clear_then_draw (cw ch : ℚ) (els : List DrawingElement)
    (pv : List CanvasOp) :
    redrawCanvasOps cw ch els pv =
      CanvasOp.clearRect 0 0 cw ch :: ((els.map drawElementOps).flatten ++ pv) := by
  unfold redrawCanvasOps
  rw [foldl_append_ops]
  simp

/-- Claim C10: every image element `uploadImage` creates sits at
`(100, 100)` with each dimension the image's natural dimension capped
at 300. -/
theorem uploadImage_placement (s : DrawState) (now : String) (img : ImageHandle)
    (c : String) (sw : ℚ) :
    ∃ el, (uploadImage s now img c sw).elements.getLast? = some el ∧
      el.x = 100 ∧ el.y = 100 ∧
      el.width = some (min img.width 300) ∧
      el.height = some (min img.height 300) := by
  have hcap : ∀ v : ℚ, (if v > 300 then (300 : ℚ) else v) = min v 300 := by
    intro v
    rcases le_or_lt v 300 with h | h
    · rw [if_neg (not_lt.mpr h), min_eq_left h]
    · rw [if_pos h, min_eq_right (le_of_lt h)]
  have hlast : (uploadImage s now img c sw).elements.getLast? = some
      { id := now, type := Tool.image, x := 100, y := 100,
        width := some (if img.width > 300 then 300 else img.width),
        height := some (if img.height > 300 then 300 else img.height),
        imageData := some img.src, imageElement := some img,
        color := c, strokeWidth := sw } := List.getLast?_concat s.elements
  refine ⟨_, hlast, rfl, rfl, ?_, ?_⟩
  · show some (if img.width > 300 then (300 : ℚ) else img.width) = _
    rw [hcap]
  · show some (if img.height > 300 then (300 : ℚ) else img.height) = _
    rw [hcap]

/-- A successful `find?` splits its list at the found element, everything
before it failing the test. -/
theorem find?_split {α : Type} (p : α → Bool) :
    ∀ (l : List α) (a : α), l.find? p = some a →
      p a = true ∧ ∃ l1 l2, l = l1 ++ a :: l2 ∧ ∀ x ∈ l1, p x = false := by
  intro l
  induction l with
  | nil =>
      intro a h
      simp [List.find?] at h
  | cons b t ih =>
      intro a h
      by_cases hb : p b = true
      · rw [List.find?_cons_of_pos _ hb] at h
        have hba : b = a := by injection h
        subst hba
        exact ⟨hb, [], t, rfl, by simp⟩
      · have hbf : p b = false := by
          simpa using hb
        rw [List.find?_cons_of_neg _ hb] at h
        obtain ⟨hpa, l1, l2, heq, hall⟩ := ih a h
        refine ⟨hpa, b :: l1, l2, by rw [heq]; rfl, ?_⟩
        intro x hx
        rcases List.mem_cons.mp hx with rfl | hx
        · exact hbf
        · exact hall x hx

/-- Claim C9: `getElementAtPosition` returns `none` exactly when no element
passes the hit test, and otherwise the hit element latest in the list: the
list splits at the returned element with every later element missing. -/
theorem getElementAtPosition_zorder (measure : TextMeasure)
    (els : List DrawingElement) (x y : ℚ) :
    (getElementAtPosition measure els x y = none ↔
      ∀ e ∈ els, elementHit measure e x y = false) ∧
    (∀ e, getElementAtPosition measure els x y = some e →
      elementHit measure e x y = true ∧
      ∃ pre post, els = pre ++ e :: post ∧
        ∀ b ∈ post, elementHit measure b x y = false) := by
  constructor
  · unfold getElementAtPosition
    rw [List.find?_eq_none]
    constructor
    · intro h e he
      have := h e (List.mem_reverse.mpr he)
      simpa using this
    · intro h e he
      have := h e (List.mem_reverse.mp he)
      simp [this]
  · intro e h
    unfold getElementAtPosition at h
    obtain ⟨hpa, l1, l2, heq, hall⟩ := find?_split _ _ _ h
    refine ⟨hpa, l2.reverse, l1.reverse, ?_, ?_⟩
    · have hrr : els = (l1 ++ e :: l2).reverse := by
        rw [← heq, List.reverse_reverse]
      rw [hrr]
      simp
    · intro b hb
      exact hall b (by simpa using hb)

/-- Witness for C9: of two stacked rectangles the later one is returned and
nothing after it in the list is hit. -/
theorem getElementAtPosition_zorder_witness :
    elementHit measure0 rectC 5 5 = true ∧
    ∃ pre post, [rectB, rectC] = pre ++ rectC :: post ∧
      ∀ b ∈ post, elementHit measure0 b 5 5 = false :=
  (getElementAtPosition_zorder measure0 [rectB, rectC] 5 5).2 rectC
    (by norm_num [getElementAtPosition, elementHit, rectB, rectC, truthyNum,
      truthyBool, truthyStr, List.find?])

/-- Counterexample to C4 as stated: the pen test measures distance to the
recorded points only, not to the polyline. The query point `(50, 5)` is
5 pixels from the segment joining `(0,0)` and `(100,0)` — inside the claimed
threshold — yet `getElementAtPosition` misses the stroke, because both
endpoints are more than 10 pixels away. -/
theorem pen_hit_polyline_cex :
    nearPolyline [⟨0, 0⟩, ⟨100, 0⟩] 50 5 = true ∧
    getElementAtPosition measure0 [penLine] 50 5 = none := by
  constructor
  · norm_num [nearPolyline, distSqPointSeg, distSq, List.zip, List.zipWith,
      min_def, max_def]
  · norm_num [getElementAtPosition, elementHit, penLine, truthyNum, truthyBool,
      truthyStr, distSq, List.find?, List.any]

/-- Claim C4 (amended): for every non-erased pen element with a point list,
the hit test reports a hit exactly when the query point is strictly within
10 pixels of at least one of the element's recorded points (not of the
polyline through them). -/
theorem pen_hit_vertex (measure : TextMeasure) (e : DrawingElement)
    (pts : List Point) (x y : ℚ)
    (htype : e.type = Tool.pen) (hpts : e.points = some pts)
    (her : truthyBool e.erased = false) :
    elementHit measure e x y = (pts.any fun p => decide (distSq p x y < 100)) ∧
    (getElementAtPosition measure [e] x y = some e ↔
      ∃ p ∈ pts, distSq p x y < 100) := by
  have hhit : elementHit measure e x y =
      (pts.any fun p => decide (distSq p x y < 100)) := by
    simp [elementHit, her, htype, hpts]
  refine ⟨hhit, ?_⟩
  have hfind : getElementAtPosition measure [e] x y =
      if elementHit measure e x y = true then some e else none := by
    rcases helem : elementHit measure e x y with _ | _ <;>
      simp [getElementAtPosition, List.find?, helem]
  rw [hfind, hhit]
  rcases hb : (pts.any fun p => decide (distSq p x y < 100)) with _ | _
  · rw [if_neg Bool.false_ne_true]
    constructor
    · intro h
      exact absurd h (by simp)
    · rintro ⟨p, hp, hlt⟩
      have ha : (pts.any fun p => decide (distSq p x y < 100)) = true :=
        List.any_eq_true.mpr ⟨p, hp, by simpa using hlt⟩
      rw [hb] at ha
      exact absurd ha (by simp)
  · rw [if_pos rfl]
    constructor
    · intro _
      obtain ⟨p, hp, hlt⟩ := List.any_eq_true.mp hb
      exact ⟨p, hp, by simpa using hlt⟩
    · intro _
      rfl

/-- Witness for C4 (amended): querying at one of the stroke's own points
hits it. -/
theorem pen_hit_vertex_witness :
    getElementAtPosition measure0 [penLine] 0 0 = some penLine :=
  ((pen_hit_vertex measure0 penLine [⟨0, 0⟩, ⟨100, 0⟩] 0 0 rfl rfl rfl).2).mpr
    ⟨⟨0, 0⟩, by simp, by norm_num [distSq]⟩

/-- Mapping a conditional update over a list with no matching identifier
changes nothing. -/
theorem map_id_of_no_match (f : DrawingElement → DrawingElement) (tid : String) :
    ∀ (l : List DrawingElement), (∀ el ∈ l, el.id ≠ tid) →
      (l.map fun el => if el.id = tid then f el else el) = l := by
  intro l
  induction l with
  | nil => intro _; rfl
  | cons a t ih =>
      intro h
      rw [List.map_cons, if_neg (h a (List.mem_cons_self a t)),
        ih fun el hel => h el (List.mem_cons_of_mem a hel)]

/-- With pairwise-distinct identifiers, the identifier-matching map of
`updateElement` rewrites exactly one position. -/
theorem map_matching_eq_set (f : DrawingElement → DrawingElement) :
    ∀ (l : List DrawingElement) (e : DrawingElement),
      e ∈ l → (l.map DrawingElement.id).Nodup →
      ∃ i : Fin l.length, l.get i = e ∧
        (l.map fun el => if el.id = e.id then f el else el) = l.set i.val (f e) := by
  intro l
  induction l with
  | nil =>
      intro e he _
      exact absurd he (List.not_mem_nil e)
  | cons a t ih =>
      intro e he hnd
      rw [List.map_cons, List.nodup_cons] at hnd
      obtain ⟨hna, hndt⟩ := hnd
      rcases List.mem_cons.mp he with rfl | het
      · have hnomatch : ∀ el ∈ t, el.id ≠ e.id := by
          intro el hel hid
          rw [← hid] at hna
          exact hna (List.mem_map_of_mem DrawingElement.id hel)
        refine ⟨⟨0, by simp⟩, rfl, ?_⟩
        rw [List.map_cons, if_pos rfl, map_id_of_no_match f e.id t hnomatch]
        rfl
      · have hne : a.id ≠ e.id := by
          intro hid
          rw [hid] at hna
          exact hna (List.mem_map_of_mem DrawingElement.id het)
        obtain ⟨i, hget, hmap⟩ := ih e het hndt
        refine ⟨⟨i.val + 1, Nat.succ_lt_succ i.isLt⟩, ?_, ?_⟩
        · exact hget
        · rw [List.map_cons, if_neg hne, hmap]
          rfl

/-- Claim C5: erasing at a position that hits an element marks exactly that
element erased in place — same list length, same order, every other element
untouched, only the `erased` flag of the hit element set — and erased
elements are skipped by both hit-testing and rendering. -/
theorem erase_soft_delete (measure : TextMeasure) (s : DrawState) (x y : ℚ)
    (e : DrawingElement)
    (hfind : getElementAtPosition measure s.elements x y = some e)
    (hnd : (s.elements.map DrawingElement.id).Nodup) :
    (∀ (el : DrawingElement) (qx qy : ℚ), truthyBool el.erased = true →
      elementHit measure el qx qy = false) ∧
    (∀ el : DrawingElement, truthyBool el.erased = true → drawElementOps el = []) ∧
    ∃ i : Fin s.elements.length,
      s.elements.get i = e ∧
      (eraseAtPosition measure s x y).elements =
        s.elements.set i.val { e with erased := some true } ∧
      (eraseAtPosition measure s x y).elements.length = s.elements.length := by
  have hskipHit : ∀ (el : DrawingElement) (qx qy : ℚ), truthyBool el.erased = true →
      elementHit measure el qx qy = false := by
    intro el qx qy her
    unfold elementHit
    rw [if_pos her]
  have hskipDraw : ∀ el : DrawingElement, truthyBool el.erased = true →
      drawElementOps el = [] := by
    intro el her
    unfold drawElementOps
    rw [if_pos her]
  have hfind' : s.elements.reverse.find? (fun b => elementHit measure b x y) = some e :=
    hfind
  have hmem : e ∈ s.elements :=
    List.mem_reverse.mp (List.mem_of_find?_eq_some hfind')
  obtain ⟨i, hget, hmap⟩ :=
    map_matching_eq_set (fun el => applyUpdates el erasedUpdate) s.elements e hmem hnd
  have hE : (eraseAtPosition measure s x y).elements =
      s.elements.set i.val { e with erased := some true } := by
    unfold eraseAtPosition
    rw [hfind]
    exact hmap
  refine ⟨hskipHit, hskipDraw, i, hget, hE, ?_⟩
  rw [hE]
  simp

/-- Witness for C5: erasing the one-point stroke at its own position. -/
theorem erase_soft_delete_witness :
    (∀ (el : DrawingElement) (qx qy : ℚ), truthyBool el.erased = true →
      elementHit measure0 el qx qy = false) ∧
    (∀ el : DrawingElement, truthyBool el.erased = true → drawElementOps el = []) ∧
    ∃ i : Fin (addElement initState penDot).elements.length,
      (addElement initState penDot).elements.get i = penDot ∧
      (eraseAtPosition measure0 (addElement initState penDot) 0 0).elements =
        (addElement initState penDot).elements.set i.val
          { penDot with erased := some true } ∧
      (eraseAtPosition measure0 (addElement initState penDot) 0 0).elements.length =
        (addElement initState penDot).elements.length :=
  erase_soft_delete measure0 (addElement initState penDot) 0 0 penDot
    (by norm_num [getElementAtPosition, addElement, initState, elementHit, penDot,
      truthyNum, truthyBool, truthyStr, distSq, List.find?])
    (by simp [addElement, initState, penDot])
